import Mathlib

/-!
Verification of the ChordGen probabilistic sequence engine.

The development shallowly embeds the Python sources of the repository:

* build_markov_matrices_by_mode.py — corpus scan and row-normalised
  transition matrices per (quadrant, mode) group;
* data_build/build_semi.py — additive smoothing and row normalisation;
* ver2/smooth_markov_matrices.py — Laplace smoothing with a self-transition
  clip;
* make_stay_histograms.py and data_build/utils.py — run-length encoding and
  stay-length histograms;
* generator.py — the semi-Markov progression generator with temperature;
* ver2/generator_semi.py — the self-stay-safe semi-Markov generator.

Numbers are modelled by exact rationals.  Randomness is modelled by an
explicit stream of uniform draws in [0,1): each call of a library sampling
routine (random.choice, random.choices, numpy.random.choice, rng.random)
consumes the next draw of the stream, selecting an element by the inverse
cumulative-distribution rule those routines implement.
-/

namespace ChordGen

/-! ## Sampling primitives -/

/-- Position of the first element whose running cumulative sum strictly
exceeds the target: the bisect step of random.choices on a cumulative-weight
table, and the searchsorted step of numpy.random.choice on a cumulative
distribution.  Returns the length of the list when no position qualifies. -/
def cumIdx : List ℚ → ℚ → Nat
  | [], _ => 0
  | p :: rest, t => if t < p then 0 else cumIdx rest (t - p) + 1

/-- Weighted pick: random.choices clamps the bisect result to the last valid
index (hi = len - 1), and numpy.random.choice normalises the cumulative
table so that its final entry is 1, which bounds the search result the same
way for draws below 1. -/
def pickIdx (l : List ℚ) (t : ℚ) : Nat := min (cumIdx l t) (l.length - 1)

/-- random.choice(seq): a uniformly chosen index, modelled as the floor of
u * len for a uniform draw u in [0,1), clamped to the valid range. -/
def uniformIdx (n : Nat) (u : ℚ) : Nat := min (Int.toNat ⌊u * (n : ℚ)⌋) (n - 1)

/-! ## build_markov_matrices_by_mode.py -/

/-- One dictionary event of a functional-representation event list, with the
two fields the builder reads.  Non-dictionary events are skipped by every
reader modelled here, so they are not represented. -/
structure Event where
  name : String
  value : String
deriving DecidableEq

/-- extract_chords: the values of the Chord events of an event list, in
order. -/
def extract_chords (events : List Event) : List String :=
  (events.filter (fun ev => ev.name = "Chord")).map (fun ev => ev.value)

/-- One source file as build_matrices sees it after loading: the quadrant
taken from the file name, the mode derived from the Key casing, and the
event list.  Unpickling and metadata extraction are out of scope. -/
structure FileRec where
  quadrant : String
  mode : String
  events : List Event
deriving DecidableEq

/-- all_codes: the chords of every file, accumulated before the len < 2
skip, so every file contributes. -/
def allCodes (files : List FileRec) : List String :=
  (files.map (fun f => extract_chords f.events)).flatten

/-- codes_sorted = sorted(all_codes): the deduplicated global alphabet in
ascending order, shared by every group's matrix. -/
def codesSorted (files : List FileRec) : List String :=
  List.insertionSort (fun a b => a ≤ b) (allCodes files).dedup

/-- The (prev, next) pairs of one chord list.  A list of fewer than two
chords yields no pairs, matching the len < 2 skip in the counting loop. -/
def transitionPairs (chords : List String) : List (String × String) :=
  chords.zip chords.tail

/-- transition_counts[quadrant][mode][(prev, nxt)]: occurrences of the pair
across the files of the group. -/
def countTrans (files : List FileRec) (q m prev nxt : String) : Nat :=
  ((files.filter (fun f => f.quadrant = q ∧ f.mode = m)).map
    (fun f => (transitionPairs (extract_chords f.events)).count (prev, nxt))).sum

/-- df.sum(axis=1): row sum of the raw count matrix over the global
alphabet. -/
def rowCountSum (files : List FileRec) (q m r : String) : Nat :=
  ((codesSorted files).map (fun c => countTrans files q m r c)).sum

/-- One entry of df.div(df.sum(axis=1).replace(0, 1), axis=0): counts are
divided by the row sum, except that a zero row sum is replaced by 1, which
leaves a zero row all-zero. -/
def probEntry (files : List FileRec) (q m r c : String) : ℚ :=
  (countTrans files q m r c : ℚ) /
    (if rowCountSum files q m r = 0 then 1 else (rowCountSum files q m r : ℚ))

/-- A pandas DataFrame as the generation phase consumes it: row labels,
column labels, and an entry lookup keyed by labels. -/
structure DFrame where
  index : List String
  columns : List String
  entry : String → String → ℚ

/-- The DataFrame that build_matrices writes for one (quadrant, mode)
group: index and columns are both codes_sorted, entries are the
row-normalised counts. -/
def build_matrices (files : List FileRec) (q m : String) : DFrame :=
  { index := codesSorted files
    columns := codesSorted files
    entry := probEntry files q m }

/-! ### Helper lemmas about the builder -/

theorem mem_codesSorted {files : List FileRec} {s : String} :
    s ∈ codesSorted files ↔ ∃ f ∈ files, s ∈ extract_chords f.events := by
  unfold codesSorted allCodes
  rw [List.mem_insertionSort, List.mem_dedup, List.mem_flatten]
  constructor
  · rintro ⟨l, hl, hs⟩
    rcases List.mem_map.1 hl with ⟨f, hf, rfl⟩
    exact ⟨f, hf, hs⟩
  · rintro ⟨f, hf, hs⟩
    exact ⟨extract_chords f.events, List.mem_map.2 ⟨f, hf, rfl⟩, hs⟩

theorem mem_of_mem_transitionPairs {chords : List String} {p : String × String}
    (h : p ∈ transitionPairs chords) : p.1 ∈ chords ∧ p.2 ∈ chords := by
  unfold transitionPairs at h
  obtain ⟨h1, h2⟩ := List.of_mem_zip (a := p.1) (b := p.2) (by simpa using h)
  exact ⟨h1, List.mem_of_mem_tail h2⟩

theorem countTrans_eq_zero_left {files : List FileRec} {q m s c : String}
    (h : ∀ f ∈ files, f.quadrant = q → f.mode = m → s ∉ extract_chords f.events) :
    countTrans files q m s c = 0 := by
  unfold countTrans
  apply List.sum_eq_zero
  intro x hx
  rcases List.mem_map.1 hx with ⟨f, hf, rfl⟩
  rcases List.mem_filter.1 hf with ⟨hfmem, hcond⟩
  have hqm : f.quadrant = q ∧ f.mode = m := by
    simpa using hcond
  apply List.count_eq_zero_of_not_mem
  intro hpair
  exact h f hfmem hqm.1 hqm.2 (mem_of_mem_transitionPairs hpair).1

theorem countTrans_eq_zero_right {files : List FileRec} {q m r s : String}
    (h : ∀ f ∈ files, f.quadrant = q → f.mode = m → s ∉ extract_chords f.events) :
    countTrans files q m r s = 0 := by
  unfold countTrans
  apply List.sum_eq_zero
  intro x hx
  rcases List.mem_map.1 hx with ⟨f, hf, rfl⟩
  rcases List.mem_filter.1 hf with ⟨hfmem, hcond⟩
  have hqm : f.quadrant = q ∧ f.mode = m := by
    simpa using hcond
  apply List.count_eq_zero_of_not_mem
  intro hpair
  exact h f hfmem hqm.1 hqm.2 (mem_of_mem_transitionPairs hpair).2

theorem list_sum_map_div (l : List ℚ) (d : ℚ) :
    (l.map (fun x => x / d)).sum = l.sum / d := by
  induction l with
  | nil => simp
  | cons a l ih => simp [ih, add_div]

theorem list_sum_map_natCast {α : Type} (l : List α) (f : α → ℕ) :
    (l.map (fun c => ((f c : ℕ) : ℚ))).sum = (((l.map f).sum : ℕ) : ℚ) := by
  induction l with
  | nil => simp
  | cons a l ih => simp [ih]

/-- A two-group corpus used as the concrete input of several statements:
group (Q1, major) observes the chords None_None, A, B in one file, group
(Q2, minor) observes C, D in another file. -/
def cexFiles : List FileRec :=
  [⟨"Q1", "major", [⟨"Chord", "None_None"⟩, ⟨"Chord", "A"⟩, ⟨"Chord", "B"⟩]⟩,
   ⟨"Q2", "minor", [⟨"Chord", "C"⟩, ⟨"Chord", "D"⟩]⟩]

theorem codesSorted_cexFiles :
    codesSorted cexFiles = ["A", "B", "C", "D", "None_None"] := by
  simp +decide [codesSorted, allCodes, extract_chords, cexFiles,
    List.insertionSort, List.orderedInsert]

/-! ### Claim theorems about the builder -/

theorem probEntry_eq_zero_of_row_zero {files : List FileRec} {q m r : String}
    (h : rowCountSum files q m r = 0) : ∀ c, probEntry files q m r c = 0 := by
  intro c
  have hcount : countTrans files q m r c = 0 := by
    by_cases hc : c ∈ codesSorted files
    · exact (List.sum_eq_zero_iff).1 h _ (List.mem_map.2 ⟨c, hc, rfl⟩)
    · apply countTrans_eq_zero_right
      intro f hf hq hm hmem
      exact hc (mem_codesSorted.2 ⟨f, hf, hmem⟩)
  unfold probEntry
  rw [hcount]
  simp

/-- Claim C2, amended.  In the matrix built by build_matrices, every row
with nonzero observed mass sums to exactly 1 (hence within 1e-6), but a row
with zero observed mass is left all-zero by the replace(0, 1) denominator,
not defaulted to a uniform distribution. -/
theorem build_matrices_row_normalisation (files : List FileRec) (q m r : String) :
    (rowCountSum files q m r ≠ 0 →
      ((codesSorted files).map (fun c => probEntry files q m r c)).sum = 1)
    ∧ (rowCountSum files q m r = 0 → ∀ c, probEntry files q m r c = 0) := by
  constructor
  · intro h
    have hs : ((rowCountSum files q m r : ℕ) : ℚ) ≠ 0 := Nat.cast_ne_zero.mpr h
    have hrw : ∀ c : String, probEntry files q m r c
        = (countTrans files q m r c : ℚ) / ((rowCountSum files q m r : ℕ) : ℚ) := by
      intro c
      unfold probEntry
      rw [if_neg h]
    calc ((codesSorted files).map (fun c => probEntry files q m r c)).sum
        = (((codesSorted files).map (fun c => (countTrans files q m r c : ℚ))).map
            (fun x => x / ((rowCountSum files q m r : ℕ) : ℚ))).sum := by
          rw [List.map_map]
          exact congrArg List.sum (List.map_congr_left fun c _ => hrw c)
      _ = ((codesSorted files).map (fun c => (countTrans files q m r c : ℚ))).sum
            / ((rowCountSum files q m r : ℕ) : ℚ) := list_sum_map_div _ _
      _ = ((rowCountSum files q m r : ℕ) : ℚ) / ((rowCountSum files q m r : ℕ) : ℚ) := by
          rw [list_sum_map_natCast]
          rfl
      _ = 1 := div_self hs
  · exact probEntry_eq_zero_of_row_zero

/-- Witness for the amended C2 row-normalisation theorem at the concrete
corpus: the observed row A of group (Q1, major) sums to 1. -/
theorem build_matrices_row_normalisation_witness :
    ((codesSorted cexFiles).map (fun c => probEntry cexFiles "Q1" "major" "A" c)).sum = 1 := by
  refine (build_matrices_row_normalisation cexFiles "Q1" "major" "A").1 ?_
  rw [rowCountSum, codesSorted_cexFiles]
  decide

/-- Claim C2, counterexample.  At the concrete corpus, row B of group
(Q1, major) has zero observed mass; its row neither sums to 1 within 1e-6
nor equals the uniform distribution 1/n: the claim as stated is false. -/
theorem build_matrices_zero_row_not_uniform :
    ¬ (|((codesSorted cexFiles).map
          (fun c => probEntry cexFiles "Q1" "major" "B" c)).sum - 1| ≤ 1/1000000
        ∨ ∀ c ∈ codesSorted cexFiles,
            probEntry cexFiles "Q1" "major" "B" c
              = 1 / ((codesSorted cexFiles).length : ℚ)) := by
  have hrow : rowCountSum cexFiles "Q1" "major" "B" = 0 := by
    rw [rowCountSum, codesSorted_cexFiles]
    decide
  have hzero : ∀ c, probEntry cexFiles "Q1" "major" "B" c = 0 :=
    probEntry_eq_zero_of_row_zero hrow
  have hsum : ((codesSorted cexFiles).map
      (fun c => probEntry cexFiles "Q1" "major" "B" c)).sum = 0 := by
    apply List.sum_eq_zero
    intro x hx
    rcases List.mem_map.1 hx with ⟨c, _, rfl⟩
    exact hzero c
  rintro (h | h)
  · rw [hsum] at h
    norm_num at h
  · have := h "A" (by rw [codesSorted_cexFiles]; decide)
    rw [hzero "A", codesSorted_cexFiles] at this
    norm_num at this

/-- Claim C10 (confirmed).  Every built matrix is square over the one
global alphabet: index and columns coincide and are the sorted,
duplicate-free union of the chords observed across all input files of all
groups; a state carrying no observation in the given group (for example one
observed only by a sibling group) has an all-zero row and an all-zero
column in that group's matrix. -/
theorem build_matrices_square_global_alphabet (files : List FileRec) (q m : String) :
    (build_matrices files q m).index = (build_matrices files q m).columns
    ∧ List.Sorted (fun a b => a ≤ b) (build_matrices files q m).index
    ∧ (build_matrices files q m).index.Nodup
    ∧ (∀ s, s ∈ (build_matrices files q m).index
        ↔ ∃ f ∈ files, s ∈ extract_chords f.events)
    ∧ ∀ s, (∀ f ∈ files, f.quadrant = q → f.mode = m → s ∉ extract_chords f.events) →
        (∀ c, (build_matrices files q m).entry s c = 0)
        ∧ (∀ r, (build_matrices files q m).entry r s = 0) := by
  refine ⟨rfl, ?_, ?_, fun s => mem_codesSorted, ?_⟩
  · exact List.sorted_insertionSort _ _
  · exact ((List.perm_insertionSort _ _).nodup_iff).2 (List.nodup_dedup _)
  · intro s hs
    constructor
    · intro c
      show probEntry files q m s c = 0
      unfold probEntry
      rw [countTrans_eq_zero_left hs]
      simp
    · intro r
      show probEntry files q m r s = 0
      unfold probEntry
      rw [countTrans_eq_zero_right hs]
      simp

/-- Witness for the C10 theorem at the concrete corpus: chord C, observed
only by group (Q2, minor), sits in the index of the (Q1, major) matrix with
an all-zero row and column there. -/
theorem build_matrices_square_global_alphabet_witness :
    "C" ∈ (build_matrices cexFiles "Q1" "major").index
    ∧ (build_matrices cexFiles "Q1" "major").entry "C" "A" = 0
    ∧ (build_matrices cexFiles "Q1" "major").entry "A" "C" = 0 := by
  have h := build_matrices_square_global_alphabet cexFiles "Q1" "major"
  have habs : ∀ f ∈ cexFiles, f.quadrant = "Q1" → f.mode = "major" →
      "C" ∉ extract_chords f.events := by decide
  refine ⟨(h.2.2.2.1 "C").2 ?_, (h.2.2.2.2 "C" habs).1 "A", (h.2.2.2.2 "C" habs).2 "A"⟩
  exact ⟨cexFiles[1], by decide, by decide⟩

/-- Claim C4, counterexample.  extract_chords keeps every Chord value, so
the sentinel token None_None present in the concrete corpus appears in the
global alphabet and hence as a row and column of the built matrix; its row
even carries probability mass 1 toward chord A.  The claim as stated is
false. -/
theorem sentinel_token_in_built_matrix :
    "None_None" ∈ (build_matrices cexFiles "Q1" "major").index
    ∧ probEntry cexFiles "Q1" "major" "None_None" "A" = 1 := by
  constructor
  · show "None_None" ∈ codesSorted cexFiles
    rw [codesSorted_cexFiles]
    decide
  · have hrow : rowCountSum cexFiles "Q1" "major" "None_None" = 1 := by
      rw [rowCountSum, codesSorted_cexFiles]
      decide
    have hcnt : countTrans cexFiles "Q1" "major" "None_None" "A" = 1 := by decide
    unfold probEntry
    rw [hrow, hcnt]
    norm_num

/-! ## data_build/build_semi.py -/

/-- smooth_and_normalise: add the smoothing constant to every cell, then
divide each row by its sum, a zero row sum being replaced by 1
(df.div(df.sum(axis=1).replace(0, 1), axis=0)). -/
def smooth_and_normalise (n : ℕ) (C : Fin n → Fin n → ℚ) (tau : ℚ) :
    Fin n → Fin n → ℚ :=
  fun i j =>
    (C i j + tau) /
      (if (∑ k, (C i k + tau)) = 0 then 1 else ∑ k, (C i k + tau))

/-- Modelled from the spec: the raw maximum-likelihood estimate divides
each raw count by its row total (a zero row staying zero, which for
non-negative counts is forced either way). -/
def rawMLNormalise (n : ℕ) (C : Fin n → Fin n → ℚ) : Fin n → Fin n → ℚ :=
  fun i j => C i j / (∑ k, C i k)

/-- Claim C6 (confirmed).  For every non-negative count matrix and every
tau > 0, smooth_and_normalise returns exactly
(C i j + tau) / sum_k (C i k + tau); every row sums to 1 and every cell is
strictly positive; and with tau = 0 the function coincides with the raw
maximum-likelihood row-normalisation. -/
theorem smooth_and_normalise_spec (n : ℕ) (C : Fin n → Fin n → ℚ) (tau : ℚ)
    (hpos : 0 < tau) (hC : ∀ i j, 0 ≤ C i j) :
    (∀ i j, smooth_and_normalise n C tau i j
        = (C i j + tau) / (∑ k, (C i k + tau)))
    ∧ (∀ i, (∑ j, smooth_and_normalise n C tau i j) = 1)
    ∧ (∀ i j, 0 < smooth_and_normalise n C tau i j)
    ∧ smooth_and_normalise n C 0 = rawMLNormalise n C := by
  have hrow : ∀ i : Fin n, 0 < ∑ k, (C i k + tau) := by
    intro i
    have : (Finset.univ : Finset (Fin n)).Nonempty := ⟨i, Finset.mem_univ i⟩
    exact Finset.sum_pos (fun k _ => add_pos_of_nonneg_of_pos (hC i k) hpos) this
  have hne : ∀ i : Fin n, (∑ k, (C i k + tau)) ≠ 0 := fun i => ne_of_gt (hrow i)
  have hform : ∀ i j, smooth_and_normalise n C tau i j
      = (C i j + tau) / (∑ k, (C i k + tau)) := by
    intro i j
    unfold smooth_and_normalise
    rw [if_neg (hne i)]
  refine ⟨hform, ?_, ?_, ?_⟩
  · intro i
    calc (∑ j, smooth_and_normalise n C tau i j)
        = ∑ j, (C i j + tau) / (∑ k, (C i k + tau)) :=
          Finset.sum_congr rfl fun j _ => hform i j
      _ = (∑ j, (C i j + tau)) / (∑ k, (C i k + tau)) := by
          rw [← Finset.sum_div]
      _ = 1 := div_self (hne i)
  · intro i j
    rw [hform i j]
    exact div_pos (add_pos_of_nonneg_of_pos (hC i j) hpos) (hrow i)
  · funext i j
    unfold smooth_and_normalise rawMLNormalise
    by_cases h : (∑ k, (C i k + 0)) = 0
    · have hz : ∀ k, C i k = 0 := by
        intro k
        have hsum : (∑ k, C i k) = 0 := by simpa using h
        have := (Finset.sum_eq_zero_iff_of_nonneg
          (fun k _ => hC i k)).1 hsum k (Finset.mem_univ k)
        exact this
      rw [if_pos h]
      simp [hz]
    · rw [if_neg h]
      simp only [add_zero]

/-- Concrete count matrix used by the smoothing witnesses. -/
def cexCounts : Fin 2 → Fin 2 → ℚ := fun _ _ => 1

/-- Witness for the C6 theorem at a concrete matrix and tau = 1: row 0 sums
to 1 and cell (0, 0) is strictly positive. -/
theorem smooth_and_normalise_spec_witness :
    (∑ j, smooth_and_normalise 2 cexCounts 1 0 j) = 1
    ∧ 0 < smooth_and_normalise 2 cexCounts 1 0 0 := by
  have h := smooth_and_normalise_spec 2 cexCounts 1 (by norm_num)
    (fun i j => by norm_num [cexCounts])
  exact ⟨h.2.1 0, h.2.2.1 0 0⟩

/-! ## ver2/smooth_markov_matrices.py -/

/-- Row total of the Laplace-smoothed counts (counts = df + 1;
total = row.sum()). -/
def lapTotal (n : ℕ) (C : Fin n → Fin n → ℚ) (i : Fin n) : ℚ :=
  ∑ k, (C i k + 1)

/-- Diagonal probability of the Laplace-smoothed row
(p = p_self / total). -/
def lapSelfP (n : ℕ) (C : Fin n → Fin n → ℚ) (i : Fin n) : ℚ :=
  (C i i + 1) / lapTotal n C i

/-- The counts after the self-transition clip of smooth_and_clip: when the
diagonal probability exceeds tau the diagonal cell is set to tau * total
and the excess counts are shared equally by the n - 1 other columns,
otherwise the smoothed row is kept. -/
def clipCounts (n : ℕ) (C : Fin n → Fin n → ℚ) (tau : ℚ) (i j : Fin n) : ℚ :=
  if tau < lapSelfP n C i then
    (if j = i then tau * lapTotal n C i
     else (C i j + 1) + (lapSelfP n C i - tau) * lapTotal n C i / ((n - 1 : ℕ) : ℚ))
  else C i j + 1

/-- smooth_and_clip: Laplace smoothing, self-transition clip, then row
normalisation (probs = counts.div(counts.sum(axis=1), axis=0)). -/
def smooth_and_clip (n : ℕ) (C : Fin n → Fin n → ℚ) (tau : ℚ) :
    Fin n → Fin n → ℚ :=
  fun i j => clipCounts n C tau i j / (∑ k, clipCounts n C tau i k)

theorem lapTotal_pos {n : ℕ} {C : Fin n → Fin n → ℚ}
    (hC : ∀ i j, 0 ≤ C i j) (i : Fin n) : 0 < lapTotal n C i := by
  have : (Finset.univ : Finset (Fin n)).Nonempty := ⟨i, Finset.mem_univ i⟩
  exact Finset.sum_pos
    (fun k _ => add_pos_of_nonneg_of_pos (hC i k) one_pos) this

theorem sum_clipCounts {n : ℕ} {C : Fin n → Fin n → ℚ} {tau : ℚ}
    (hn : 2 ≤ n) (hC : ∀ i j, 0 ≤ C i j) (i : Fin n) :
    (∑ k, clipCounts n C tau i k) = lapTotal n C i := by
  have htot : lapTotal n C i ≠ 0 := ne_of_gt (lapTotal_pos hC i)
  have hcard : ((Finset.univ : Finset (Fin n)).erase i).card = n - 1 := by
    rw [Finset.card_erase_of_mem (Finset.mem_univ i), Finset.card_univ,
      Fintype.card_fin]
  have hn1 : ((n - 1 : ℕ) : ℚ) ≠ 0 := by
    have : 1 ≤ n - 1 := Nat.le_sub_one_of_lt hn
    exact_mod_cast Nat.one_le_iff_ne_zero.1 this
  by_cases hclip : tau < lapSelfP n C i
  · have hsplit : (∑ k, clipCounts n C tau i k)
        = clipCounts n C tau i i
          + ∑ k ∈ (Finset.univ : Finset (Fin n)).erase i, clipCounts n C tau i k :=
      (Finset.add_sum_erase (Finset.univ : Finset (Fin n))
        (fun k => clipCounts n C tau i k) (Finset.mem_univ i)).symm
    rw [hsplit]
    have hdiag : clipCounts n C tau i i = tau * lapTotal n C i := by
      unfold clipCounts
      rw [if_pos hclip, if_pos rfl]
    have hoff : ∀ k ∈ (Finset.univ : Finset (Fin n)).erase i,
        clipCounts n C tau i k
          = (C i k + 1) + (lapSelfP n C i - tau) * lapTotal n C i / ((n - 1 : ℕ) : ℚ) := by
      intro k hk
      unfold clipCounts
      rw [if_pos hclip, if_neg (Finset.ne_of_mem_erase hk)]
    rw [hdiag, Finset.sum_congr rfl hoff, Finset.sum_add_distrib,
      Finset.sum_const, hcard]
    have hsum_off : (∑ k ∈ (Finset.univ : Finset (Fin n)).erase i, (C i k + 1))
        = lapTotal n C i - (C i i + 1) := by
      have hLT : lapTotal n C i = (C i i + 1)
          + ∑ k ∈ (Finset.univ : Finset (Fin n)).erase i, (C i k + 1) :=
        (Finset.add_sum_erase (Finset.univ : Finset (Fin n))
          (fun k => C i k + 1) (Finset.mem_univ i)).symm
      linarith [hLT]
    rw [hsum_off, nsmul_eq_mul]
    have hself : lapSelfP n C i * lapTotal n C i = C i i + 1 :=
      div_mul_cancel₀ _ htot
    have hshare : ((n - 1 : ℕ) : ℚ)
        * ((lapSelfP n C i - tau) * lapTotal n C i / ((n - 1 : ℕ) : ℚ))
        = (lapSelfP n C i - tau) * lapTotal n C i := by
      rw [mul_div_assoc']
      exact mul_div_cancel_left₀ _ hn1
    rw [hshare]
    have : (lapSelfP n C i - tau) * lapTotal n C i
        = (C i i + 1) - tau * lapTotal n C i := by
      rw [sub_mul, hself]
    rw [this]
    ring
  · have : ∀ k ∈ (Finset.univ : Finset (Fin n)), clipCounts n C tau i k = C i k + 1 := by
      intro k _
      unfold clipCounts
      rw [if_neg hclip]
    rw [Finset.sum_congr rfl this]
    rfl

/-- Claim C7 (confirmed).  For every row of the matrix processed by
smooth_and_clip with cap tau, writing p for the diagonal probability of the
Laplace-smoothed row: when p exceeds tau, the returned row-normalised
matrix has diagonal exactly tau and every off-diagonal cell receives its
smoothed share plus the excess (p - tau) split equally over the n - 1
off-diagonal cells; when p is at most tau, the row keeps its smoothed
proportions unchanged. -/
theorem smooth_and_clip_spec (n : ℕ) (C : Fin n → Fin n → ℚ) (tau : ℚ)
    (hn : 2 ≤ n) (h0 : 0 < tau) (h1 : tau < 1) (hC : ∀ i j, 0 ≤ C i j) :
    ∀ i : Fin n,
      (tau < lapSelfP n C i →
        smooth_and_clip n C tau i i = tau
        ∧ ∀ j, j ≠ i → smooth_and_clip n C tau i j
            = (C i j + 1) / lapTotal n C i
              + (lapSelfP n C i - tau) / ((n - 1 : ℕ) : ℚ))
      ∧ (lapSelfP n C i ≤ tau →
        ∀ j, smooth_and_clip n C tau i j = (C i j + 1) / lapTotal n C i) := by
  intro i
  have htot : lapTotal n C i ≠ 0 := ne_of_gt (lapTotal_pos hC i)
  have hn1 : ((n - 1 : ℕ) : ℚ) ≠ 0 := by
    have : 1 ≤ n - 1 := Nat.le_sub_one_of_lt hn
    exact_mod_cast Nat.one_le_iff_ne_zero.1 this
  constructor
  · intro hclip
    constructor
    · unfold smooth_and_clip
      rw [sum_clipCounts hn hC i]
      have hdiag : clipCounts n C tau i i = tau * lapTotal n C i := by
        unfold clipCounts
        rw [if_pos hclip, if_pos rfl]
      rw [hdiag, mul_div_assoc, div_self htot, mul_one]
    · intro j hj
      unfold smooth_and_clip
      rw [sum_clipCounts hn hC i]
      have hoff : clipCounts n C tau i j
          = (C i j + 1) + (lapSelfP n C i - tau) * lapTotal n C i / ((n - 1 : ℕ) : ℚ) := by
        unfold clipCounts
        rw [if_pos hclip, if_neg hj]
      rw [hoff, add_div]
      congr 1
      rw [div_div, mul_comm ((n - 1 : ℕ) : ℚ) (lapTotal n C i),
        mul_comm (lapSelfP n C i - tau) (lapTotal n C i),
        mul_div_mul_left _ _ htot]
  · intro hle
    intro j
    unfold smooth_and_clip
    rw [sum_clipCounts hn hC i]
    have : clipCounts n C tau i j = C i j + 1 := by
      unfold clipCounts
      rw [if_neg (not_lt.mpr hle)]
    rw [this]

/-- The concrete 3-state count matrix of the spec scenario: 17 self
transitions of state 0, nothing else; Laplace smoothing turns row 0 into
counts 18, 1, 1, whose diagonal probability is 0.9. -/
def clipCex : Fin 3 → Fin 3 → ℚ := fun i j => if i = 0 ∧ j = 0 then 17 else 0

/-- Witness for the C7 theorem at the spec scenario: with cap 0.4 the
clipped and renormalised row 0 is 0.4, 0.3, 0.3. -/
theorem smooth_and_clip_spec_witness :
    smooth_and_clip 3 clipCex (2/5) 0 0 = 2/5
    ∧ smooth_and_clip 3 clipCex (2/5) 0 1 = 3/10
    ∧ smooth_and_clip 3 clipCex (2/5) 0 2 = 3/10 := by
  have htotal : lapTotal 3 clipCex 0 = 20 := by
    unfold lapTotal
    rw [Fin.sum_univ_three]
    simp +decide [clipCex]
    norm_num
  have hp : lapSelfP 3 clipCex 0 = 9/10 := by
    unfold lapSelfP
    rw [htotal]
    simp +decide [clipCex]
    norm_num
  have h := smooth_and_clip_spec 3 clipCex (2/5) (by norm_num) (by norm_num)
    (by norm_num) (fun i j => by dsimp [clipCex]; split <;> norm_num) 0
  have hclip : (2/5 : ℚ) < lapSelfP 3 clipCex 0 := by rw [hp]; norm_num
  obtain ⟨hdiag, hoff⟩ := h.1 hclip
  refine ⟨hdiag, ?_, ?_⟩
  · rw [hoff 1 (by decide), htotal, hp]
    simp +decide [clipCex]
    norm_num
  · rw [hoff 2 (by decide), htotal, hp]
    simp +decide [clipCex]
    norm_num

/-! ## make_stay_histograms.py and data_build/utils.py -/

/-- The run accumulation loop of build_histograms: prev is the symbol of
the run being scanned, len its length so far; the final run is flushed at
the end of the sequence. -/
def runsGo : List String → String → Nat → List (String × Nat)
  | [], prev, len => [(prev, len)]
  | c :: rest, prev, len =>
    if c = prev then runsGo rest prev (len + 1)
    else (prev, len) :: runsGo rest c 1

/-- The run-length encoding of one bar-level chord sequence, as
build_histograms scans it: a list of (symbol, run length) in order.  An
empty sequence yields no runs. -/
def runsOf : List String → List (String × Nat)
  | [] => []
  | c :: rest => runsGo rest c 1

/-- The scanning loop of extract_stay_lengths (data_build/utils.py). -/
def stayGo : List String → String → Nat → List Nat
  | [], _, cnt => [cnt]
  | s :: rest, cur, cnt =>
    if s = cur then stayGo rest cur (cnt + 1)
    else cnt :: stayGo rest s 1

/-- extract_stay_lengths: the list of run lengths of a sequence. -/
def extract_stay_lengths : List String → List Nat
  | [] => []
  | c :: rest => stayGo rest c 1

/-- hist[chord]: the run lengths accumulated for one chord across a corpus
of bar-level sequences. -/
def chordRunLengths (corpus : List (List String)) (c : String) : List Nat :=
  (((corpus.map runsOf).flatten).filter (fun r => r.1 = c)).map (fun r => r.2)

/-- result[chord][run_len] = cnt / total: the probability assigned to one
run length for one chord. -/
def stayProb (corpus : List (List String)) (c : String) (L : Nat) : ℚ :=
  ((chordRunLengths corpus c).count L : ℚ)
    / ((chordRunLengths corpus c).length : ℚ)

theorem runsGo_flatten (rest : List String) (prev : String) (len : Nat) :
    ((runsGo rest prev len).map (fun r => List.replicate r.2 r.1)).flatten
      = List.replicate len prev ++ rest := by
  induction rest generalizing prev len with
  | nil => simp [runsGo]
  | cons c rest ih =>
    by_cases h : c = prev
    · rw [runsGo, if_pos h, ih]
      subst h
      rw [List.replicate_succ']
      simp
    · rw [runsGo, if_neg h]
      simp only [List.map_cons, List.flatten_cons, ih]
      simp

theorem runsGo_head (rest : List String) (prev : String) (len : Nat) :
    ∃ L tl, runsGo rest prev len = (prev, L) :: tl := by
  induction rest generalizing len with
  | nil => exact ⟨len, [], rfl⟩
  | cons c rest ih =>
    by_cases h : c = prev
    · obtain ⟨L, tl, hL⟩ := ih (len + 1)
      exact ⟨L, tl, by rw [runsGo, if_pos h, hL]⟩
    · exact ⟨len, runsGo rest c 1, by rw [runsGo, if_neg h]⟩

theorem runsGo_chain (rest : List String) (prev : String) (len : Nat) :
    List.Chain' (fun a b : String × Nat => a.1 ≠ b.1) (runsGo rest prev len) := by
  induction rest generalizing prev len with
  | nil => simp [runsGo]
  | cons c rest ih =>
    by_cases h : c = prev
    · rw [runsGo, if_pos h]
      exact ih prev (len + 1)
    · rw [runsGo, if_neg h]
      obtain ⟨L, tl, hL⟩ := runsGo_head rest c 1
      rw [hL]
      rw [List.chain'_cons]
      refine ⟨fun hh => h hh.symm, ?_⟩
      rw [← hL]
      exact ih c 1

theorem runsGo_pos (rest : List String) (prev : String) (len : Nat)
    (hlen : 0 < len) : ∀ r ∈ runsGo rest prev len, 0 < r.2 := by
  induction rest generalizing prev len with
  | nil =>
    intro r hr
    rw [runsGo] at hr
    simp at hr
    rw [hr]
    exact hlen
  | cons c rest ih =>
    intro r hr
    by_cases h : c = prev
    · rw [runsGo, if_pos h] at hr
      exact ih prev (len + 1) (Nat.succ_pos len) r hr
    · rw [runsGo, if_neg h] at hr
      rcases List.mem_cons.1 hr with hr | hr
      · rw [hr]
        exact hlen
      · exact ih c 1 Nat.one_pos r hr

theorem stayGo_eq_runsGo (rest : List String) (prev : String) (len : Nat) :
    stayGo rest prev len = (runsGo rest prev len).map (fun r => r.2) := by
  induction rest generalizing prev len with
  | nil => simp [stayGo, runsGo]
  | cons c rest ih =>
    by_cases h : c = prev
    · rw [stayGo, runsGo, if_pos h, if_pos h]
      exact ih prev (len + 1)
    · rw [stayGo, runsGo, if_neg h, if_neg h]
      simp only [List.map_cons]
      rw [ih c 1]

/-- Claim C8 (confirmed).  The stay-length model run-length-encodes each
bar-level sequence: the runs rebuild the sequence, adjacent runs carry
different symbols, every run length is positive, a single-symbol sequence
gives one run of length 1 and an empty sequence gives none;
extract_stay_lengths lists exactly the run lengths; and for every chord
observed in at least one run the probabilities of its stay-length
distribution sum to exactly 1 (hence within 1e-6). -/
theorem stay_length_model_spec :
    (∀ seq : List String,
      ((runsOf seq).map (fun r => List.replicate r.2 r.1)).flatten = seq
      ∧ List.Chain' (fun a b : String × Nat => a.1 ≠ b.1) (runsOf seq)
      ∧ ∀ r ∈ runsOf seq, 0 < r.2)
    ∧ runsOf [] = []
    ∧ (∀ a : String, runsOf [a] = [(a, 1)])
    ∧ (∀ seq : List String,
        extract_stay_lengths seq = (runsOf seq).map (fun r => r.2))
    ∧ ∀ (corpus : List (List String)) (c : String),
        chordRunLengths corpus c ≠ [] →
        ((chordRunLengths corpus c).dedup.map (fun L => stayProb corpus c L)).sum = 1 := by
  refine ⟨?_, rfl, fun a => rfl, ?_, ?_⟩
  · intro seq
    match seq with
    | [] => exact ⟨rfl, List.chain'_nil, by simp [runsOf]⟩
    | c :: rest =>
      refine ⟨?_, runsGo_chain rest c 1, runsGo_pos rest c 1 Nat.one_pos⟩
      rw [runsOf, runsGo_flatten]
      simp
  · intro seq
    match seq with
    | [] => rfl
    | c :: rest => exact stayGo_eq_runsGo rest c 1
  · intro corpus c hne
    have hlen : ((chordRunLengths corpus c).length : ℚ) ≠ 0 := by
      exact_mod_cast List.length_pos.2 hne |>.ne'
    calc ((chordRunLengths corpus c).dedup.map (fun L => stayProb corpus c L)).sum
        = (((chordRunLengths corpus c).dedup.map
              (fun L => ((chordRunLengths corpus c).count L : ℚ))).map
            (fun x => x / ((chordRunLengths corpus c).length : ℚ))).sum := by
          rw [List.map_map]
          rfl
      _ = ((chordRunLengths corpus c).dedup.map
            (fun L => ((chordRunLengths corpus c).count L : ℚ))).sum
            / ((chordRunLengths corpus c).length : ℚ) := list_sum_map_div _ _
      _ = (((chordRunLengths corpus c).dedup.map
            (fun L => (chordRunLengths corpus c).count L)).sum : ℕ)
            / ((chordRunLengths corpus c).length : ℚ) := by
          rw [list_sum_map_natCast]
      _ = ((chordRunLengths corpus c).length : ℚ)
            / ((chordRunLengths corpus c).length : ℚ) := by
          rw [List.sum_map_count_dedup_eq_length]
      _ = 1 := div_self hlen

/-- Witness for the C8 theorem at the concrete corpus [[A, A, B]]: chord A
is observed in one run (of length 2) and its distribution sums to 1. -/
theorem stay_length_model_spec_witness :
    ((chordRunLengths [["A", "A", "B"]] "A").dedup.map
      (fun L => stayProb [["A", "A", "B"]] "A" L)).sum = 1 :=
  stay_length_model_spec.2.2.2.2 [["A", "A", "B"]] "A" (by decide)

/-! ## generator.py

The stay histogram STAY_HIST is a mapping from chord to a table of
(length, probability) items; the empty table models both a missing entry
and an empty histogram, which the source treats alike (if not table).
Random draws are read from the stream u at an explicit counter. -/

/-- The validation tolerance of numpy.random.choice for the probability
sum (sqrt of the double epsilon, about 1.49e-8) and the atol of
np.allclose (1e-8), both modelled as 1e-8. -/
def npAtol : ℚ := 1/100000000

/-- numpy.random.choice with a probability vector and one uniform draw:
validates the vector (no negative entries, sum within tolerance of 1),
then selects the index by inverse cumulative distribution. -/
def npChoice (ps : List ℚ) (u : ℚ) : Except String Nat :=
  if ¬ (∀ p ∈ ps, 0 ≤ p) then .error "probabilities are not non-negative"
  else if ¬ (|ps.sum - 1| ≤ npAtol) then .error "probabilities do not sum to 1"
  else .ok (pickIdx ps (u * ps.sum))

/-- sample_stay: draw a stay length from the chord's histogram (1 when the
table is missing or empty), then clamp by max(1, min(stay, max_stay)).
Returns the stay and the advanced draw counter. -/
def sample_stay (hist : String → List (Nat × ℚ)) (u : Nat → ℚ) (k : Nat)
    (chord : String) (maxStay : Nat) : Except String (Nat × Nat) :=
  match hist chord with
  | [] => .ok (1, k)
  | table =>
    match npChoice (table.map (fun e => e.2)) (u k) with
    | .error e => .error e
    | .ok i =>
      .ok (max 1 (min ((table.map (fun e => e.1)).getD i 1) maxStay), k + 1)

/-- matrix.loc[cur] as a vector in column order. -/
def rowProbs (M : DFrame) (cur : String) : List ℚ :=
  M.columns.map (fun c => M.entry cur c)

/-- _apply_temperature: rejects a non-positive temperature, passes an
all-zero row through unchanged, and otherwise applies the Boltzmann map
and renormalises.  The float power x ** (1/T) is modelled by the explicit
parameter pw; for T = 1 the source computes the identity map, matched by
pw = id. -/
def apply_temperature (pw : ℚ → ℚ) (probs : List ℚ) (T : ℚ) :
    Except String (List ℚ) :=
  if T ≤ 0 then .error "temperature must be positive"
  else if probs.sum = 0 then .ok probs
  else .ok ((probs.map pw).map (fun x => x / (probs.map pw).sum))

/-- np.allclose(probs, 0): every entry within atol of zero. -/
def allCloseZero (probs : List ℚ) : Prop := ∀ p ∈ probs, |p| ≤ npAtol

instance (probs : List ℚ) : Decidable (allCloseZero probs) :=
  List.decidableBAll _ probs

/-- The TRANSITION step of generate_progression: temperature-scale the
current row, fall back to a uniform choice over the columns when the
scaled row is zero or close to all zero, otherwise draw from the scaled
distribution.  Returns the next chord and the advanced draw counter. -/
def next_chord_step (pw : ℚ → ℚ) (M : DFrame) (T : ℚ) (u : Nat → ℚ)
    (k : Nat) (cur : String) : Except String (String × Nat) :=
  match apply_temperature pw (rowProbs M cur) T with
  | .error e => .error e
  | .ok probs =>
    if probs.sum = 0 ∨ allCloseZero probs then
      .ok (M.columns.getD (uniformIdx M.columns.length (u k)) "", k + 1)
    else
      match npChoice probs (u k) with
      | .error e => .error e
      | .ok i => .ok (M.columns.getD i "", k + 1)

/-- The while loop of generate_progression, recursing on the remaining
number of bars.  The fuel argument only justifies the recursion: every
iteration emits at least one symbol, so a fuel of bars suffices at the top
level. -/
def genLoop (pw : ℚ → ℚ) (M : DFrame) (hist : String → List (Nat × ℚ))
    (maxStay : Nat) (T : ℚ) (u : Nat → ℚ) :
    Nat → Nat → Nat → String → Except String (List String)
  | 0, _, _, _ => .ok []
  | _ + 1, 0, _, _ => .ok []
  | fuel + 1, remaining + 1, k, cur =>
    match sample_stay hist u k cur maxStay with
    | .error e => .error e
    | .ok (stay0, k1) =>
      let stay := min stay0 (remaining + 1)
      if remaining + 1 ≤ stay then .ok (List.replicate stay cur)
      else
        match next_chord_step pw M T u k1 cur with
        | .error e => .error e
        | .ok (nxt, k2) =>
          match genLoop pw M hist maxStay T u fuel (remaining + 1 - stay) k2 nxt with
          | .error e => .error e
          | .ok rest => .ok (List.replicate stay cur ++ rest)

/-- matrix.sum(axis=1): the start weights, one per row label. -/
def startWeights (M : DFrame) : List ℚ :=
  M.index.map (fun r => (rowProbs M r).sum)

/-- generate_progression: choose the start chord by total outgoing weight
(uniformly when the weights are all zero), then alternate stay-length
sampling and temperature-scaled transitions until the requested number of
bars is emitted. -/
def generate_progression (pw : ℚ → ℚ) (M : DFrame)
    (hist : String → List (Nat × ℚ)) (bars maxStay : Nat) (T : ℚ)
    (u : Nat → ℚ) : Except String (List String) :=
  let cur :=
    if (startWeights M).sum = 0 then
      M.index.getD (uniformIdx M.index.length (u 0)) ""
    else
      M.index.getD (pickIdx (startWeights M) (u 0 * (startWeights M).sum)) ""
  genLoop pw M hist maxStay T u bars bars 1 cur

/-! ### Helper lemmas about the generator -/

theorem list_getD_mem {l : List String} (hne : l ≠ []) {i : Nat}
    (hi : i ≤ l.length - 1) (d : String) : l.getD i d ∈ l := by
  have hlen : 0 < l.length := List.length_pos.2 hne
  have hi' : i < l.length := lt_of_le_of_lt hi (Nat.sub_lt hlen Nat.one_pos)
  rw [List.getD_eq_getElem l d hi']
  exact List.getElem_mem hi'

theorem pickIdx_le (l : List ℚ) (t : ℚ) : pickIdx l t ≤ l.length - 1 :=
  min_le_right _ _

theorem uniformIdx_le (n : Nat) (u : ℚ) : uniformIdx n u ≤ n - 1 :=
  min_le_right _ _

theorem sample_stay_ok (hist : String → List (Nat × ℚ)) (u : Nat → ℚ)
    (k : Nat) (chord : String) (maxStay : Nat)
    (hhist : ∀ c, hist c ≠ [] → ((hist c).map (fun e => e.2)).sum = 1
      ∧ ∀ p ∈ (hist c).map (fun e => e.2), 0 ≤ p) :
    ∃ s k', sample_stay hist u k chord maxStay = .ok (s, k') ∧ 1 ≤ s := by
  rcases hc : hist chord with _ | ⟨e, tl⟩
  · exact ⟨1, k, by simp only [sample_stay, hc], le_refl 1⟩
  · have hne : hist chord ≠ [] := by rw [hc]; exact List.cons_ne_nil e tl
    obtain ⟨hsum, hnonneg⟩ := hhist chord hne
    rw [hc] at hsum hnonneg
    have hchoice : npChoice ((e :: tl).map (fun e => e.2)) (u k)
        = .ok (pickIdx ((e :: tl).map (fun e => e.2))
            (u k * ((e :: tl).map (fun e => e.2)).sum)) := by
      unfold npChoice
      rw [if_neg (not_not_intro hnonneg), if_neg]
      rw [hsum]
      simp [npAtol]
    have heq : sample_stay hist u k chord maxStay
        = .ok (max 1 (min (((e :: tl).map (fun e => e.1)).getD
            (pickIdx ((e :: tl).map (fun e => e.2))
              (u k * ((e :: tl).map (fun e => e.2)).sum)) 1) maxStay), k + 1) := by
      simp only [sample_stay, hc, hchoice]
    exact ⟨_, _, heq, le_max_left _ _⟩

theorem next_chord_ok (pw : ℚ → ℚ) (M : DFrame) (T : ℚ) (u : Nat → ℚ)
    (k : Nat) (cur : String) (hT : 0 < T)
    (hM : ∀ c, 0 ≤ M.entry cur c) (hpw : ∀ x, 0 ≤ x → 0 ≤ pw x)
    (hcol : M.columns ≠ []) :
    ∃ nxt k', next_chord_step pw M T u k cur = .ok (nxt, k')
      ∧ nxt ∈ M.columns := by
  have hrow_nonneg : ∀ p ∈ rowProbs M cur, 0 ≤ p := by
    intro p hp
    rcases List.mem_map.1 hp with ⟨c, _, rfl⟩
    exact hM c
  have hTne : ¬ T ≤ 0 := not_le.2 hT
  by_cases hs : (rowProbs M cur).sum = 0
  · have happ : apply_temperature pw (rowProbs M cur) T = .ok (rowProbs M cur) := by
      unfold apply_temperature
      rw [if_neg hTne, if_pos hs]
    have heq : next_chord_step pw M T u k cur
        = .ok (M.columns.getD (uniformIdx M.columns.length (u k)) "", k + 1) := by
      simp only [next_chord_step, happ, if_pos (Or.inl hs)]
    exact ⟨_, _, heq, list_getD_mem hcol (uniformIdx_le _ _) ""⟩
  · have happ : apply_temperature pw (rowProbs M cur) T
        = .ok (((rowProbs M cur).map pw).map
            (fun x => x / ((rowProbs M cur).map pw).sum)) := by
      unfold apply_temperature
      rw [if_neg hTne, if_neg hs]
    by_cases hsc : ((rowProbs M cur).map pw).sum = 0
    · have hzero : (((rowProbs M cur).map pw).map
          (fun x => x / ((rowProbs M cur).map pw).sum)).sum = 0 := by
        apply List.sum_eq_zero
        intro x hx
        rcases List.mem_map.1 hx with ⟨y, _, rfl⟩
        rw [hsc, div_zero]
      have heq : next_chord_step pw M T u k cur
          = .ok (M.columns.getD (uniformIdx M.columns.length (u k)) "", k + 1) := by
        simp only [next_chord_step, happ, if_pos (Or.inl hzero)]
      exact ⟨_, _, heq, list_getD_mem hcol (uniformIdx_le _ _) ""⟩
    · have hpw_nonneg : ∀ y ∈ (rowProbs M cur).map pw, 0 ≤ y := by
        intro y hy
        rcases List.mem_map.1 hy with ⟨x, hx, rfl⟩
        exact hpw x (hrow_nonneg x hx)
      have hsc_pos : 0 < ((rowProbs M cur).map pw).sum :=
        lt_of_le_of_ne (List.sum_nonneg hpw_nonneg) (Ne.symm hsc)
      have hsum1 : (((rowProbs M cur).map pw).map
          (fun x => x / ((rowProbs M cur).map pw).sum)).sum = 1 := by
        rw [list_sum_map_div]
        exact div_self hsc
      have hnonneg1 : ∀ p ∈ ((rowProbs M cur).map pw).map
          (fun x => x / ((rowProbs M cur).map pw).sum), 0 ≤ p := by
        intro p hp
        rcases List.mem_map.1 hp with ⟨y, hy, rfl⟩
        exact div_nonneg (hpw_nonneg y hy) (le_of_lt hsc_pos)
      by_cases hcond : (((rowProbs M cur).map pw).map
          (fun x => x / ((rowProbs M cur).map pw).sum)).sum = 0
          ∨ allCloseZero (((rowProbs M cur).map pw).map
              (fun x => x / ((rowProbs M cur).map pw).sum))
      · have heq : next_chord_step pw M T u k cur
            = .ok (M.columns.getD (uniformIdx M.columns.length (u k)) "", k + 1) := by
          simp only [next_chord_step, happ, if_pos hcond]
        exact ⟨_, _, heq, list_getD_mem hcol (uniformIdx_le _ _) ""⟩
      · have hchoice : npChoice (((rowProbs M cur).map pw).map
            (fun x => x / ((rowProbs M cur).map pw).sum)) (u k)
            = .ok (pickIdx (((rowProbs M cur).map pw).map
                (fun x => x / ((rowProbs M cur).map pw).sum))
                (u k * (((rowProbs M cur).map pw).map
                  (fun x => x / ((rowProbs M cur).map pw).sum)).sum)) := by
          unfold npChoice
          rw [if_neg (not_not_intro hnonneg1), if_neg]
          rw [hsum1]
          simp [npAtol]
        have hlen : (((rowProbs M cur).map pw).map
            (fun x => x / ((rowProbs M cur).map pw).sum)).length
            = M.columns.length := by
          simp [rowProbs]
        have heq : next_chord_step pw M T u k cur
            = .ok (M.columns.getD (pickIdx (((rowProbs M cur).map pw).map
                (fun x => x / ((rowProbs M cur).map pw).sum))
                (u k * (((rowProbs M cur).map pw).map
                  (fun x => x / ((rowProbs M cur).map pw).sum)).sum)) "", k + 1) := by
          simp only [next_chord_step, happ, if_neg hcond, hchoice]
        refine ⟨_, _, heq, list_getD_mem hcol ?_ ""⟩
        rw [← hlen]
        exact pickIdx_le _ _

theorem genLoop_spec (pw : ℚ → ℚ) (M : DFrame)
    (hist : String → List (Nat × ℚ)) (maxStay : Nat) (T : ℚ) (u : Nat → ℚ)
    (hT : 0 < T) (hM : ∀ r c, 0 ≤ M.entry r c)
    (hpw : ∀ x, 0 ≤ x → 0 ≤ pw x) (hcol : M.columns ≠ [])
    (hhist : ∀ c, hist c ≠ [] → ((hist c).map (fun e => e.2)).sum = 1
      ∧ ∀ p ∈ (hist c).map (fun e => e.2), 0 ≤ p) :
    ∀ fuel remaining k cur, remaining ≤ fuel →
      ∃ l, genLoop pw M hist maxStay T u fuel remaining k cur = .ok l
        ∧ l.length = remaining
        ∧ ∀ t ∈ l, t = cur ∨ t ∈ M.columns := by
  intro fuel
  induction fuel with
  | zero =>
    intro remaining k cur hle
    have : remaining = 0 := Nat.le_zero.1 hle
    subst this
    exact ⟨[], rfl, rfl, by simp⟩
  | succ fuel ih =>
    intro remaining k cur hle
    match remaining with
    | 0 => exact ⟨[], rfl, rfl, by simp⟩
    | r + 1 =>
      obtain ⟨s, k1, hs, hs1⟩ := sample_stay_ok hist u k cur maxStay hhist
      have hstay1 : 1 ≤ min s (r + 1) := le_min hs1 (Nat.succ_le_succ (Nat.zero_le r))
      by_cases hfill : r + 1 ≤ min s (r + 1)
      · have hstay : min s (r + 1) = r + 1 :=
          le_antisymm (min_le_right _ _) hfill
        refine ⟨List.replicate (min s (r + 1)) cur, ?_, ?_, ?_⟩
        · simp only [genLoop, hs]
          rw [if_pos hfill]
        · rw [List.length_replicate, hstay]
        · intro t ht
          exact Or.inl (List.eq_of_mem_replicate ht)
      · obtain ⟨nxt, k2, hn, hnmem⟩ :=
          next_chord_ok pw M T u k1 cur hT (fun c => hM cur c) hpw hcol
        have hrec : r + 1 - min s (r + 1) ≤ fuel := by
          have h1 : r + 1 - min s (r + 1) ≤ r + 1 - 1 := by
            exact Nat.sub_le_sub_left hstay1 (r + 1)
          have h2 : r ≤ fuel := Nat.lt_succ_iff.1 (Nat.lt_of_lt_of_le (Nat.lt_succ_self r) hle)
          omega
        obtain ⟨rest, hrest, hrestlen, hrestmem⟩ :=
          ih (r + 1 - min s (r + 1)) k2 nxt hrec
        refine ⟨List.replicate (min s (r + 1)) cur ++ rest, ?_, ?_, ?_⟩
        · simp only [genLoop, hs]
          rw [if_neg hfill]
          simp only [hn, hrest]
        · rw [List.length_append, List.length_replicate, hrestlen]
          omega
        · intro t ht
          rcases List.mem_append.1 ht with ht | ht
          · exact Or.inl (List.eq_of_mem_replicate ht)
          · rcases hrestmem t ht with h | h
            · exact Or.inr (h ▸ hnmem)
            · exact Or.inr h

/-! ### Claim theorems about the generator -/

/-- Claim C1 (confirmed).  For every matrix with at least one state
(non-empty index and columns), non-negative entries, every requested
length, a positive temperature, a non-negativity-preserving power map and
well-formed stay histograms, generate_progression succeeds and returns a
sequence of exactly bars chord tokens: the final stay block is truncated
to the remaining budget, so the output is never shorter or longer than
bars. -/
theorem generate_progression_length (pw : ℚ → ℚ) (M : DFrame)
    (hist : String → List (Nat × ℚ)) (bars maxStay : Nat) (T : ℚ)
    (u : Nat → ℚ) (hbars : 0 < bars) (hidx : M.index ≠ [])
    (hcol : M.columns ≠ []) (hT : 0 < T) (hM : ∀ r c, 0 ≤ M.entry r c)
    (hpw : ∀ x, 0 ≤ x → 0 ≤ pw x)
    (hhist : ∀ c, hist c ≠ [] → ((hist c).map (fun e => e.2)).sum = 1
      ∧ ∀ p ∈ (hist c).map (fun e => e.2), 0 ≤ p) :
    ∃ l, generate_progression pw M hist bars maxStay T u = .ok l
      ∧ l.length = bars := by
  obtain ⟨l, hok, hlen, _⟩ := genLoop_spec pw M hist maxStay T u hT hM hpw hcol hhist
    bars bars 1
    (if (startWeights M).sum = 0 then
      M.index.getD (uniformIdx M.index.length (u 0)) ""
    else
      M.index.getD (pickIdx (startWeights M) (u 0 * (startWeights M).sum)) "")
    (le_refl bars)
  exact ⟨l, hok, hlen⟩

/-- A concrete two-state matrix with every entry 1/2. -/
def mat2 : DFrame :=
  { index := ["A", "B"], columns := ["A", "B"], entry := fun _ _ => 1/2 }

/-- Witness for the C1 theorem: a concrete three-bar generation over mat2
succeeds with exactly three tokens. -/
theorem generate_progression_length_witness :
    ∃ l, generate_progression id mat2 (fun _ => []) 3 4 1 (fun _ => 0) = .ok l
      ∧ l.length = 3 := by
  refine generate_progression_length id mat2 (fun _ => []) 3 4 1 (fun _ => 0)
    (by norm_num) (by decide) (by decide) (by norm_num) ?_ ?_ ?_
  · intro r c
    norm_num [mat2]
  · intro x hx
    exact hx
  · intro c hc
    exact absurd rfl hc

/-- One loop iteration that fills the whole remaining budget: with an
empty histogram the stay is 1, so a remaining budget of 1 is filled by the
current chord without reaching the transition step. -/
theorem genLoop_one_step (pw : ℚ → ℚ) (M : DFrame)
    (hist : String → List (Nat × ℚ)) (maxStay : Nat) (T : ℚ) (u : Nat → ℚ)
    (k : Nat) (cur : String) (hh : hist cur = []) :
    genLoop pw M hist maxStay T u 1 1 k cur = .ok [cur] := by
  simp only [genLoop, sample_stay, hh]
  norm_num

/-- One loop iteration that does not fill the remaining budget: with an
empty histogram and a non-positive temperature the transition step fails,
so the loop propagates the temperature error. -/
theorem genLoop_temp_error (pw : ℚ → ℚ) (M : DFrame)
    (hist : String → List (Nat × ℚ)) (maxStay : Nat) (T : ℚ) (u : Nat → ℚ)
    (fuel r k : Nat) (cur : String) (hh : hist cur = []) (hT : T ≤ 0) :
    genLoop pw M hist maxStay T u (fuel + 1) (r + 2) k cur
      = .error "temperature must be positive" := by
  have hnext : next_chord_step pw M T u k cur
      = .error "temperature must be positive" := by
    have happ : apply_temperature pw (rowProbs M cur) T
        = .error "temperature must be positive" := by
      unfold apply_temperature
      rw [if_pos hT]
    simp only [next_chord_step, happ]
  have hfill : ¬ (r + 2 ≤ min 1 (r + 2)) := by
    have : min 1 (r + 2) = 1 := min_eq_left (by omega)
    omega
  simp only [genLoop, sample_stay, hh]
  rw [if_neg hfill, hnext]

/-- Claim C5, amended.  generate_progression performs no validation before
generation: with a non-positive temperature (and stay histograms absent,
so every stay is one bar) a request of zero bars returns the empty
sequence without error, a request of one bar is filled entirely by the
first stay block and succeeds, and only a request of at least two bars
reaches a TRANSITION step and fails with the temperature error raised
inside _apply_temperature. -/
theorem generate_progression_late_validation (pw : ℚ → ℚ) (M : DFrame)
    (hist : String → List (Nat × ℚ)) (maxStay : Nat) (T : ℚ) (u : Nat → ℚ)
    (hT : T ≤ 0) (hh : ∀ c, hist c = []) :
    generate_progression pw M hist 0 maxStay T u = .ok []
    ∧ (∃ t, generate_progression pw M hist 1 maxStay T u = .ok [t])
    ∧ ∀ bars, 2 ≤ bars → generate_progression pw M hist bars maxStay T u
        = .error "temperature must be positive" := by
  refine ⟨rfl, ?_, ?_⟩
  · exact ⟨_, genLoop_one_step pw M hist maxStay T u 1 _ (hh _)⟩
  · intro bars hbars
    obtain ⟨b, rfl⟩ : ∃ b, bars = b + 2 := ⟨bars - 2, by omega⟩
    show genLoop pw M hist maxStay T u (b + 2) (b + 2) 1 _
      = .error "temperature must be positive"
    exact genLoop_temp_error pw M hist maxStay T u (b + 1) b 1 _ (hh _) hT

/-- A concrete one-state matrix. -/
def mat1 : DFrame := { index := ["A"], columns := ["A"], entry := fun _ _ => 1 }

/-- Witness for the amended C5 theorem at a concrete matrix, temperature
-1 and empty histograms. -/
theorem generate_progression_late_validation_witness :
    generate_progression id mat1 (fun _ => []) 0 4 (-1) (fun _ => 0) = .ok []
    ∧ (∃ t, generate_progression id mat1 (fun _ => []) 1 4 (-1) (fun _ => 0)
        = .ok [t])
    ∧ generate_progression id mat1 (fun _ => []) 16 4 (-1) (fun _ => 0)
        = .error "temperature must be positive" := by
  obtain ⟨h0, h1, h2⟩ := generate_progression_late_validation id mat1
    (fun _ => []) 4 (-1) (fun _ => 0) (by norm_num) (fun c => rfl)
  exact ⟨h0, h1, h2 16 (by norm_num)⟩

/-- Claim C5, counterexample.  With temperature -1 the call is not
rejected before generation: a one-bar request (whose first stay block
already fills the whole length) succeeds, and a zero-bar request returns
the empty sequence instead of an error.  The claim as stated is false. -/
theorem generate_progression_no_early_validation_cex :
    generate_progression id mat1 (fun _ => []) 1 4 (-1) (fun _ => 0) = .ok ["A"]
    ∧ generate_progression id mat1 (fun _ => []) 0 4 (-1) (fun _ => 0) = .ok [] := by
  constructor
  · have hsw : startWeights mat1 = [1] := by
      simp [startWeights, rowProbs, mat1]
    show genLoop id mat1 (fun _ => []) 4 (-1) (fun _ => 0) 1 1 1 _ = .ok ["A"]
    have hcur : (if (startWeights mat1).sum = 0 then
        mat1.index.getD (uniformIdx mat1.index.length ((fun _ : Nat => (0:ℚ)) 0)) ""
      else
        mat1.index.getD (pickIdx (startWeights mat1)
          (((fun _ : Nat => (0:ℚ)) 0) * (startWeights mat1).sum)) "") = "A" := by
      rw [hsw]
      norm_num [pickIdx, cumIdx, mat1]
    rw [hcur]
    exact genLoop_one_step id mat1 (fun _ => []) 4 (-1) (fun _ => 0) 1 "A" rfl
  · rfl

theorem cumIdx_spec : ∀ (l : List ℚ) (t : ℚ), 0 ≤ t → t < l.sum →
    cumIdx l t < l.length ∧ 0 < l.getD (cumIdx l t) 0 := by
  intro l
  induction l with
  | nil =>
    intro t ht hlt
    rw [List.sum_nil] at hlt
    exact absurd (lt_of_le_of_lt ht hlt) (lt_irrefl 0)
  | cons p rest ih =>
    intro t ht hlt
    by_cases h : t < p
    · simp only [cumIdx, if_pos h]
      exact ⟨Nat.succ_pos _, by simpa using lt_of_le_of_lt ht h⟩
    · simp only [cumIdx, if_neg h]
      have hp : p ≤ t := not_lt.1 h
      have h1 : 0 ≤ t - p := by linarith
      have h2 : t - p < rest.sum := by
        rw [List.sum_cons] at hlt
        linarith
      obtain ⟨hlen, hpos⟩ := ih (t - p) h1 h2
      exact ⟨Nat.succ_lt_succ hlen, by simpa using hpos⟩

theorem pickIdx_eq_cumIdx {l : List ℚ} {t : ℚ} (h : cumIdx l t < l.length) :
    pickIdx l t = cumIdx l t :=
  min_eq_left (Nat.le_sub_one_of_lt h)

/-- Claim C3, counterexample.  Over the concrete matrix mat2, whose row A
is [1/2, 1/2] with a nonzero self-transition cell, the TRANSITION step
does not zero the diagonal: the temperature-scaled row keeps the self cell
at 1/2, and the sampled next symbol equals the current symbol A.  The
claim as stated is false. -/
theorem transition_step_can_repeat_cex :
    rowProbs mat2 "A" = [1/2, 1/2]
    ∧ apply_temperature id (rowProbs mat2 "A") 1 = .ok [1/2, 1/2]
    ∧ next_chord_step id mat2 1 (fun _ => 0) 0 "A" = .ok ("A", 1) := by
  have hrow : rowProbs mat2 "A" = [1/2, 1/2] := by
    simp [rowProbs, mat2]
  have happ : apply_temperature id (rowProbs mat2 "A") 1 = .ok [1/2, 1/2] := by
    rw [hrow]
    unfold apply_temperature
    rw [if_neg (by norm_num), if_neg (by norm_num)]
    norm_num
  refine ⟨hrow, happ, ?_⟩
  have hcond : ¬ (([1/2, 1/2] : List ℚ).sum = 0 ∨ allCloseZero [1/2, 1/2]) := by
    rintro (h | h)
    · norm_num at h
    · have := h (1/2) (by norm_num)
      rw [npAtol, abs_of_pos (by norm_num : (0:ℚ) < 1/2)] at this
      norm_num at this
  have hchoice : npChoice [1/2, 1/2] ((fun _ : Nat => (0:ℚ)) 0) = .ok 0 := by
    unfold npChoice
    rw [if_neg (not_not_intro (by norm_num)), if_neg (by norm_num [npAtol])]
    norm_num [pickIdx, cumIdx]
  simp only [next_chord_step, happ, if_neg hcond, hchoice]
  rfl

/-- Claim C3, amended.  The TRANSITION step of generate_progression
samples directly from the temperature-scaled row without zeroing the
self-transition cell, so the next symbol can repeat the current one
whenever the diagonal entry is nonzero (see the counterexample); only when
the current row's diagonal entry is already zero — as in the example row
[0, 0.5, 0.5] — is the sampled next symbol guaranteed different from the
current one. -/
theorem next_chord_no_self_when_diag_zero (pw : ℚ → ℚ) (M : DFrame)
    (T : ℚ) (u : Nat → ℚ) (k : Nat) (cur : String)
    (hdiag : M.entry cur cur = 0)
    (hM : ∀ c, 0 ≤ M.entry cur c) (hT : 0 < T)
    (hpw0 : pw 0 = 0) (hpwpos : ∀ x, 0 < x → 0 < pw x)
    (hs : (rowProbs M cur).sum ≠ 0)
    (hu0 : 0 ≤ u k) (hu1 : u k < 1)
    (hcollen : M.columns.length ≤ 10000000) :
    ∃ nxt k', next_chord_step pw M T u k cur = .ok (nxt, k') ∧ nxt ≠ cur := by
  have hpw : ∀ x, 0 ≤ x → 0 ≤ pw x := by
    intro x hx
    rcases eq_or_lt_of_le hx with h | h
    · rw [← h, hpw0]
    · exact (hpwpos x h).le
  have hrow_nonneg : ∀ p ∈ rowProbs M cur, 0 ≤ p := by
    intro p hp
    rcases List.mem_map.1 hp with ⟨c, _, rfl⟩
    exact hM c
  have hpw_nonneg : ∀ y ∈ (rowProbs M cur).map pw, 0 ≤ y := by
    intro y hy
    rcases List.mem_map.1 hy with ⟨x, hx, rfl⟩
    exact hpw x (hrow_nonneg x hx)
  have hex : ∃ x ∈ rowProbs M cur, 0 < x := by
    by_contra hno
    push_neg at hno
    apply hs
    apply List.sum_eq_zero
    intro x hx
    exact le_antisymm (hno x hx) (hrow_nonneg x hx)
  have hsc : ((rowProbs M cur).map pw).sum ≠ 0 := by
    obtain ⟨x, hx, hxpos⟩ := hex
    have hmem : pw x ∈ (rowProbs M cur).map pw := List.mem_map.2 ⟨x, hx, rfl⟩
    have := List.single_le_sum hpw_nonneg _ hmem
    have := lt_of_lt_of_le (hpwpos x hxpos) this
    exact ne_of_gt this
  have happ : apply_temperature pw (rowProbs M cur) T
      = .ok (((rowProbs M cur).map pw).map
          (fun x => x / ((rowProbs M cur).map pw).sum)) := by
    unfold apply_temperature
    rw [if_neg (not_le.2 hT), if_neg hs]
  have hsum1 : (((rowProbs M cur).map pw).map
      (fun x => x / ((rowProbs M cur).map pw).sum)).sum = 1 := by
    rw [list_sum_map_div]
    exact div_self hsc
  have hplen : (((rowProbs M cur).map pw).map
      (fun x => x / ((rowProbs M cur).map pw).sum)).length
      = M.columns.length := by
    simp [rowProbs]
  have hnonneg1 : ∀ p ∈ ((rowProbs M cur).map pw).map
      (fun x => x / ((rowProbs M cur).map pw).sum), 0 ≤ p := by
    intro p hp
    rcases List.mem_map.1 hp with ⟨y, hy, rfl⟩
    exact div_nonneg (hpw_nonneg y hy)
      (lt_of_le_of_ne (List.sum_nonneg hpw_nonneg) (Ne.symm hsc)).le
  have hcond : ¬ ((((rowProbs M cur).map pw).map
      (fun x => x / ((rowProbs M cur).map pw).sum)).sum = 0
      ∨ allCloseZero (((rowProbs M cur).map pw).map
          (fun x => x / ((rowProbs M cur).map pw).sum))) := by
    rintro (h | h)
    · rw [hsum1] at h
      norm_num at h
    · have hb := List.sum_le_card_nsmul _ npAtol
        (fun x hx => le_trans (le_abs_self x) (h x hx))
      rw [hsum1, hplen, nsmul_eq_mul] at hb
      have hcast : ((M.columns.length : ℕ) : ℚ) ≤ 10000000 := by
        exact_mod_cast hcollen
      rw [npAtol] at hb
      nlinarith
  have hchoice : npChoice (((rowProbs M cur).map pw).map
      (fun x => x / ((rowProbs M cur).map pw).sum)) (u k)
      = .ok (pickIdx (((rowProbs M cur).map pw).map
          (fun x => x / ((rowProbs M cur).map pw).sum))
          (u k * (((rowProbs M cur).map pw).map
            (fun x => x / ((rowProbs M cur).map pw).sum)).sum)) := by
    unfold npChoice
    rw [if_neg (not_not_intro hnonneg1), if_neg]
    rw [hsum1]
    simp [npAtol]
  have heq : next_chord_step pw M T u k cur
      = .ok (M.columns.getD (pickIdx (((rowProbs M cur).map pw).map
          (fun x => x / ((rowProbs M cur).map pw).sum))
          (u k * (((rowProbs M cur).map pw).map
            (fun x => x / ((rowProbs M cur).map pw).sum)).sum)) "", k + 1) := by
    simp only [next_chord_step, happ, if_neg hcond, hchoice]
  have htarg : 0 ≤ u k * (((rowProbs M cur).map pw).map
        (fun x => x / ((rowProbs M cur).map pw).sum)).sum
      ∧ u k * (((rowProbs M cur).map pw).map
        (fun x => x / ((rowProbs M cur).map pw).sum)).sum
        < (((rowProbs M cur).map pw).map
          (fun x => x / ((rowProbs M cur).map pw).sum)).sum := by
    rw [hsum1, mul_one]
    exact ⟨hu0, hu1⟩
  obtain ⟨hilt, hipos⟩ := cumIdx_spec _ _ htarg.1 htarg.2
  rw [pickIdx_eq_cumIdx hilt] at heq
  refine ⟨_, _, heq, ?_⟩
  intro hcontra
  have hilt' : cumIdx (((rowProbs M cur).map pw).map
      (fun x => x / ((rowProbs M cur).map pw).sum))
      (u k * (((rowProbs M cur).map pw).map
        (fun x => x / ((rowProbs M cur).map pw).sum)).sum) < M.columns.length := by
    rw [← hplen]
    exact hilt
  have hgetp : (((rowProbs M cur).map pw).map
      (fun x => x / ((rowProbs M cur).map pw).sum)).getD
      (cumIdx (((rowProbs M cur).map pw).map
        (fun x => x / ((rowProbs M cur).map pw).sum))
        (u k * (((rowProbs M cur).map pw).map
          (fun x => x / ((rowProbs M cur).map pw).sum)).sum)) 0
      = pw (M.entry cur (M.columns.getD (cumIdx (((rowProbs M cur).map pw).map
          (fun x => x / ((rowProbs M cur).map pw).sum))
          (u k * (((rowProbs M cur).map pw).map
            (fun x => x / ((rowProbs M cur).map pw).sum)).sum)) ""))
        / ((rowProbs M cur).map pw).sum := by
    rw [List.getD_eq_getElem _ _ hilt, List.getD_eq_getElem _ _ hilt']
    simp [rowProbs]
  rw [hgetp, hcontra, hdiag, hpw0, zero_div] at hipos
  exact lt_irrefl 0 hipos

/-- The concrete three-state matrix of the spec example: row A is
[0, 1/2, 1/2] (self-transition cell already zero), other rows zero. -/
def mat3z : DFrame :=
  { index := ["A", "B", "C"], columns := ["A", "B", "C"]
    entry := fun r c => if r = "A" then (if c = "A" then 0 else 1/2) else 0 }

/-- Witness for the amended C3 theorem at the spec example row: over
mat3z the transition step from A returns a symbol different from A. -/
theorem next_chord_no_self_when_diag_zero_witness :
    ∃ nxt k', next_chord_step id mat3z 1 (fun _ => 0) 0 "A" = .ok (nxt, k')
      ∧ nxt ≠ "A" := by
  refine next_chord_no_self_when_diag_zero id mat3z 1 (fun _ => 0) 0 "A"
    (by norm_num [mat3z]) ?_ (by norm_num) rfl (fun x h => h) ?_
    (by norm_num) (by norm_num) (by norm_num [mat3z])
  · intro c
    dsimp [mat3z]
    split_ifs <;> norm_num
  · simp [rowProbs, mat3z]

/-- Claim C4, amended.  No sentinel filtering exists on the build or the
generation path: every chord value of the corpus (sentinels such as
None_None included) enters the global alphabet of the built matrices, and
every token emitted by generate_progression is a member of the matrix's
index or columns — valid precisely when the alphabet itself is free of
sentinels.  (The counterexample shows a sentinel entering the alphabet
with positive transition mass.) -/
theorem generate_tokens_within_alphabet :
    (∀ (files : List FileRec) (q m s : String),
      (∃ f ∈ files, s ∈ extract_chords f.events) →
      s ∈ (build_matrices files q m).index)
    ∧ ∀ (pw : ℚ → ℚ) (M : DFrame) (hist : String → List (Nat × ℚ))
        (bars maxStay : Nat) (T : ℚ) (u : Nat → ℚ),
        M.index ≠ [] → M.columns ≠ [] → 0 < T →
        (∀ r c, 0 ≤ M.entry r c) → (∀ x, 0 ≤ x → 0 ≤ pw x) →
        (∀ c, hist c ≠ [] → ((hist c).map (fun e => e.2)).sum = 1
          ∧ ∀ p ∈ (hist c).map (fun e => e.2), 0 ≤ p) →
        ∃ l, generate_progression pw M hist bars maxStay T u = .ok l
          ∧ ∀ t ∈ l, t ∈ M.index ∨ t ∈ M.columns := by
  constructor
  · intro files q m s hex
    exact mem_codesSorted.2 hex
  · intro pw M hist bars maxStay T u hidx hcol hT hM hpw hhist
    have hswlen : (startWeights M).length = M.index.length := by
      simp [startWeights]
    have hcur : (if (startWeights M).sum = 0 then
        M.index.getD (uniformIdx M.index.length (u 0)) ""
      else
        M.index.getD (pickIdx (startWeights M) (u 0 * (startWeights M).sum)) "")
        ∈ M.index := by
      by_cases h : (startWeights M).sum = 0
      · rw [if_pos h]
        exact list_getD_mem hidx (uniformIdx_le _ _) ""
      · rw [if_neg h]
        refine list_getD_mem hidx ?_ ""
        rw [← hswlen]
        exact pickIdx_le _ _
    obtain ⟨l, hok, _, hmem⟩ := genLoop_spec pw M hist maxStay T u hT hM hpw hcol hhist
      bars bars 1
      (if (startWeights M).sum = 0 then
        M.index.getD (uniformIdx M.index.length (u 0)) ""
      else
        M.index.getD (pickIdx (startWeights M) (u 0 * (startWeights M).sum)) "")
      (le_refl bars)
    refine ⟨l, hok, ?_⟩
    intro t ht
    rcases hmem t ht with h | h
    · exact Or.inl (h ▸ hcur)
    · exact Or.inr h

/-- Witness for the amended C4 theorem: the sentinel None_None of the
concrete corpus enters the built alphabet, and a concrete generation over
mat2 emits only tokens of mat2's labels. -/
theorem generate_tokens_within_alphabet_witness :
    "None_None" ∈ (build_matrices cexFiles "Q1" "major").index
    ∧ ∃ l, generate_progression id mat2 (fun _ => []) 2 4 1 (fun _ => 0) = .ok l
        ∧ ∀ t ∈ l, t ∈ mat2.index ∨ t ∈ mat2.columns := by
  constructor
  · exact generate_tokens_within_alphabet.1 cexFiles "Q1" "major" "None_None"
      ⟨cexFiles[0], by decide, by decide⟩
  · exact generate_tokens_within_alphabet.2 id mat2 (fun _ => []) 2 4 1 (fun _ => 0)
      (by decide) (by decide) (by norm_num)
      (fun r c => by norm_num [mat2]) (fun x hx => hx)
      (fun c hc => absurd rfl hc)

/-! ## ver2/generator_semi.py

The built artifacts are the mode statistics (major_ratio per quadrant) and
one probability DataFrame per (quadrant, mode).  The seeded
random.Random(seed) is modelled by its stream of uniform draws: rng.random
and rng.choices each consume the next draw. -/

/-- The built artifacts generator_semi.py loads from disk. -/
structure SemiArtifacts where
  majorRatio : String → ℚ
  matrix : String → String → DFrame

/-- choose_mode: major exactly when the uniform draw is below the
quadrant's major ratio. -/
def choose_mode (art : SemiArtifacts) (q : String) (u0 : ℚ) : String :=
  if u0 < art.majorRatio q then "major" else "minor"

/-- pandas idxmax: the first label attaining the maximal weight. -/
def idxmax (labels : List String) (w : String → ℚ) : String :=
  labels.foldl (fun best x => if w best < w x then x else best) (labels.headD "")

/-- expected_stay: mean stay length 1/(1-p), capped at 16 for p at least
0.999, with the denominator floored at 1e-6. -/
def expected_stay (p : ℚ) : ℚ :=
  if 999/1000 ≤ p then 16 else 1 / max (1/1000000) (1 - p)

/-- next_chord: the self-stay-safe semi-Markov step.  When the stay count
has reached the tolerated stay length (the ceiling of 1.5 times the mean
stay, at least 2) the self cell is zeroed; a zero row falls back to a pure
self-transition; the row is renormalised and one weighted draw selects the
next chord. -/
def next_chord (df : DFrame) (cur : String) (stayCnt : Nat) (u0 : ℚ) : String :=
  let p_self := df.entry cur cur
  let mu := expected_stay p_self
  let maxStay : ℤ := max 2 ⌈(3/2 : ℚ) * mu⌉
  let probs1 : String → ℚ := fun c =>
    if maxStay ≤ (stayCnt : ℤ) ∧ c = cur then 0 else df.entry cur c
  let s := (df.columns.map probs1).sum
  let probs2 : String → ℚ :=
    if s = 0 then (fun c => if c = cur then 1 else probs1 c) else probs1
  let s2 : ℚ := if s = 0 then 1 else s
  let weights := df.columns.map (fun c => probs2 c / s2)
  df.columns.getD (pickIdx weights (u0 * weights.sum)) ""

/-- The generation loop of generator_semi.generate_progression: one
next_chord draw per remaining bar, tracking how long the current chord has
already stayed. -/
def semiLoop (df : DFrame) (u : Nat → ℚ) :
    Nat → Nat → Nat → String → List String
  | 0, _, _, _ => []
  | b + 1, k, stayCnt, cur =>
    let nxt := next_chord df cur stayCnt (u k)
    nxt :: semiLoop df u b (k + 1) (if nxt = cur then stayCnt + 1 else 0) nxt

/-- generate_progression (generator_semi.py): choose the mode, load the
matrix, start from the row of maximal outgoing weight, then extend bar by
bar.  Returns the mode and the progression. -/
def generate_progression_semi (art : SemiArtifacts) (quadrant : String)
    (bars : Nat) (u : Nat → ℚ) : String × List String :=
  let mode := choose_mode art quadrant (u 0)
  let df := art.matrix quadrant mode
  let start := idxmax df.index (fun r => (rowProbs df r).sum)
  (mode, start :: semiLoop df u (bars - 1) 1 0 start)

theorem semiLoop_congr (df : DFrame) (u1 u2 : Nat → ℚ) :
    ∀ b k stayCnt cur, (∀ j, j < b → u1 (k + j) = u2 (k + j)) →
      semiLoop df u1 b k stayCnt cur = semiLoop df u2 b k stayCnt cur := by
  intro b
  induction b with
  | zero => intro k stayCnt cur _; rfl
  | succ b ih =>
    intro k stayCnt cur h
    have h0 : u1 k = u2 k := by
      have := h 0 (Nat.succ_pos b)
      simpa using this
    simp only [semiLoop, h0]
    rw [ih (k + 1) _ _ (fun j hj => by
      have := h (j + 1) (Nat.succ_lt_succ hj)
      simpa [Nat.add_assoc, Nat.add_comm 1 j] using this)]

/-- Claim C9 (confirmed).  Generation is deterministic: all randomness of
generator_semi.generate_progression flows through the stream of draws of
the seeded rng, so two calls with the same artifacts, quadrant, length and
draw stream — in particular two calls whose streams agree on the first
bars draws, as two rng instances built from the same non-None seed do —
return the same (mode, sequence) pair. -/
theorem generate_progression_semi_deterministic (art : SemiArtifacts)
    (quadrant : String) (bars : Nat) (u1 u2 : Nat → ℚ) (hbars : 0 < bars)
    (h : ∀ k, k < bars → u1 k = u2 k) :
    generate_progression_semi art quadrant bars u1
      = generate_progression_semi art quadrant bars u2 := by
  have h0 : u1 0 = u2 0 := h 0 hbars
  simp only [generate_progression_semi, h0]
  rw [semiLoop_congr (art.matrix quadrant (choose_mode art quadrant (u2 0)))
    u1 u2 (bars - 1) 1 0 _ (fun j hj => h (1 + j) (by omega))]

/-- Concrete artifacts for the C9 witness. -/
def semiArt : SemiArtifacts :=
  { majorRatio := fun _ => 1/2, matrix := fun _ _ => mat2 }

/-- Witness for the C9 theorem: two four-bar runs over the same artifacts
with two streams that agree on the first four draws coincide. -/
theorem generate_progression_semi_deterministic_witness :
    generate_progression_semi semiArt "Q1" 4 (fun _ => 0)
      = generate_progression_semi semiArt "Q1" 4 (fun k => if k < 4 then 0 else 1) := by
  refine generate_progression_semi_deterministic semiArt "Q1" 4 _ _ (by norm_num) ?_
  intro k hk
  simp [hk]

end ChordGen
